import Mathlib

/-!
Verification of the `fastfloat` crate (`src/lib.rs`).

The crate wraps `f32`/`f64` in a `Fast<F>` newtype whose arithmetic
operators route to LLVM fast-math intrinsics, builds a total order on top
of the partial float order, and provides two bit-level transcendental
approximations (`fastexp`, `fastln`).

Shallow embedding used here:
* a scalar value is modelled by `FP`: NaN, a signed infinity, or a finite
  value given by its exact rational magnitude (signed zero is elided — no
  verified property distinguishes `-0.0` from `0.0`);
* one arithmetic primitive per operator acts on `FP`, with the finite case
  rounding the exact rational result to the format (round to nearest, ties
  to even), which is the IEEE behaviour; the fast-math intrinsics coincide
  with it on the finite inputs the crate documents as supported, and the
  claims below only evaluate arithmetic on such inputs;
* the bit-level code in `fastln` is modelled exactly over `ℤ`/`ℕ` with
  two's-complement wrapping (release semantics); an overflow-checked
  variant models the debug semantics of the two `i32` subtractions;
* machine integers are `ℤ`/`ℕ` with explicit reduction mod `2 ^ 32`.
-/

unseal Rat.mul Rat.inv Rat.add Rat.sub

namespace FastFloat

/-- Scalar value of one floating-point datum: NaN, a signed infinity
(`neg = true` for negative), or a finite value as an exact rational. -/
inductive FP where
  | nan : FP
  | inf (neg : Bool) : FP
  | fin (q : ℚ) : FP
deriving DecidableEq

/-- Floating-point format: precision in bits, minimum and maximum exponent
of one unit in the last place.  `fmt32` and `fmt64` are IEEE binary32 and
binary64. -/
structure Fmt where
  prec : ℕ
  emin : ℤ
  emax : ℤ
deriving DecidableEq

def fmt32 : Fmt := ⟨24, -149, 104⟩

def fmt64 : Fmt := ⟨53, -1074, 971⟩

/-- Computable power of two in `ℚ` for an integer exponent. -/
def pow2 (e : ℤ) : ℚ :=
  if 0 ≤ e then ((2 ^ e.toNat : ℕ) : ℚ) else ((2 ^ (-e).toNat : ℕ) : ℚ)⁻¹

/-- Largest finite magnitude of the format. -/
def Fmt.maxFin (fmt : Fmt) : ℚ := ((2 ^ fmt.prec - 1 : ℕ) : ℚ) * pow2 fmt.emax

/-- Computable absolute value on `ℚ` (kernel-reduction friendly). -/
def qabs (q : ℚ) : ℚ := if q < 0 then -q else q

/-- Round a nonnegative rational to the nearest natural, ties to even. -/
def roundHalfEven (q : ℚ) : ℕ :=
  let n := q.num.toNat
  let d := q.den
  if 2 * (n % d) < d then n / d
  else if d < 2 * (n % d) then n / d + 1
  else if n / d % 2 = 0 then n / d else n / d + 1

/-- Exponent search: starting from `k`, find the first exponent `e` with
`a < 2 ^ (e + p)`; the unit in the last place of `a` in a format with
precision `p` is then `2 ^ e`.  Structural fuel keeps the definition
kernel-reducible; the formats instantiate the fuel so that it never runs
out on in-range magnitudes. -/
def findE (a : ℚ) (p : ℕ) : ℕ → ℤ → ℤ
  | 0, k => k
  | fuel + 1, k => if pow2 (k + (p : ℤ)) ≤ a then findE a p fuel (k + 1) else k

/-- Round a rational to the nearest representable value of the format,
ties to even, overflowing to a signed infinity.  This is the IEEE
round-to-nearest-even step applied by hardware to an exact intermediate
result. -/
def fround (fmt : Fmt) (q : ℚ) : FP :=
  if q = 0 then .fin 0
  else
    let a := qabs q
    let e := findE a fmt.prec ((fmt.emax - fmt.emin).toNat + 1) fmt.emin
    let m := roundHalfEven (a / pow2 e)
    if fmt.maxFin < (m : ℚ) * pow2 e then .inf (q < 0)
    else .fin ((if q < 0 then -1 else 1) * m * pow2 e)

/-- The rational `q` is exactly representable in the format. -/
def isRepr (fmt : Fmt) (q : ℚ) : Prop :=
  ∃ m e : ℤ, m.natAbs < 2 ^ fmt.prec ∧ fmt.emin ≤ e ∧ e ≤ fmt.emax ∧
    q = (m : ℚ) * pow2 e

/-- NaN test on scalar values. -/
def FP.isNan : FP → Bool
  | .nan => true
  | _ => false

/-- IEEE `<` on scalar values: any comparison against NaN is false. -/
def flt : FP → FP → Bool
  | .nan, _ => false
  | _, .nan => false
  | .inf s, .inf t => s && !t
  | .inf s, .fin _ => s
  | .fin _, .inf t => !t
  | .fin a, .fin b => a < b

/-- IEEE `==` on scalar values: any comparison against NaN is false. -/
def feq : FP → FP → Bool
  | .nan, _ => false
  | _, .nan => false
  | .inf s, .inf t => s == t
  | .fin a, .fin b => a = b
  | _, _ => false

/-- IEEE partial comparison on scalar values: `none` exactly when a NaN is
involved; models Rust's float `partial_cmp` used by the derived
`PartialOrd` on the wrapper. -/
def pcmpFP (x y : FP) : Option Ordering :=
  if x.isNan || y.isNan then none
  else if flt x y then some .lt
  else if feq x y then some .eq
  else some .gt

/-- Fast-math add primitive (`fadd_fast`), modelled as IEEE addition:
specials propagate, finite operands add exactly and round. -/
def fadd (fmt : Fmt) : FP → FP → FP
  | .nan, _ => .nan
  | _, .nan => .nan
  | .inf s, .inf t => if s = t then .inf s else .nan
  | .inf s, .fin _ => .inf s
  | .fin _, .inf t => .inf t
  | .fin a, .fin b => fround fmt (a + b)

/-- Fast-math subtract primitive (`fsub_fast`), modelled as IEEE
subtraction. -/
def fsub (fmt : Fmt) : FP → FP → FP
  | .nan, _ => .nan
  | _, .nan => .nan
  | .inf s, .inf t => if s = t then .nan else .inf s
  | .inf s, .fin _ => .inf s
  | .fin _, .inf t => .inf (!t)
  | .fin a, .fin b => fround fmt (a - b)

/-- Fast-math multiply primitive (`fmul_fast`), modelled as IEEE
multiplication. -/
def fmul (fmt : Fmt) : FP → FP → FP
  | .nan, _ => .nan
  | _, .nan => .nan
  | .inf s, .inf t => .inf (xor s t)
  | .inf s, .fin b => if b = 0 then .nan else .inf (xor s (decide (b < 0)))
  | .fin a, .inf t => if a = 0 then .nan else .inf (xor (decide (a < 0)) t)
  | .fin a, .fin b => fround fmt (a * b)

/-- Fast-math divide primitive (`fdiv_fast`), modelled as IEEE division. -/
def fdiv (fmt : Fmt) : FP → FP → FP
  | .nan, _ => .nan
  | _, .nan => .nan
  | .inf _, .inf _ => .nan
  | .inf s, .fin b => .inf (xor s (decide (b < 0)))
  | .fin _, .inf _ => .fin 0
  | .fin a, .fin b =>
    if b = 0 then (if a = 0 then .nan else .inf (decide (a < 0)))
    else fround fmt (a / b)

/-- Truncation of a rational toward zero. -/
def ratTrunc (q : ℚ) : ℤ := q.num.tdiv q.den

/-- Fast-math remainder primitive (`frem_fast`), modelled as IEEE `fmod`
(truncated remainder, exact on finite operands). -/
def frem : FP → FP → FP
  | .nan, _ => .nan
  | _, .nan => .nan
  | .inf _, _ => .nan
  | .fin a, .inf _ => .fin a
  | .fin a, .fin b =>
    if b = 0 then .nan else .fin (a - b * ratTrunc (a / b))

/-- Exact product with IEEE special handling and no rounding; the first
half of a fused multiply-add. -/
def fmulExact : FP → FP → FP
  | .nan, _ => .nan
  | _, .nan => .nan
  | .inf s, .inf t => .inf (xor s t)
  | .inf s, .fin b => if b = 0 then .nan else .inf (xor s (decide (b < 0)))
  | .fin a, .inf t => if a = 0 then .nan else .inf (xor (decide (a < 0)) t)
  | .fin a, .fin b => .fin (a * b)

/-- Fused multiply-add (`mul_add`): exact product, exact sum, one
rounding. -/
def ffma (fmt : Fmt) (a b c : FP) : FP := fadd fmt (fmulExact a b) c

/-- The wrapper type `Fast<F>` (a newtype around one scalar). -/
structure Fast where
  val : FP
deriving DecidableEq

/-- The `fa` convenience constructor (source line 49). -/
def fa (x : FP) : Fast := ⟨x⟩

/-- Operator shape `Fast<F> ⊕ F` generated by `impl_op!`: unwrap the left
operand, apply the intrinsic, rewrap. -/
def opWR (prim : FP → FP → FP) (a : Fast) (r : FP) : Fast := fa (prim a.val r)

/-- Operator shape `F ⊕ Fast<F>` generated by `impl_op!`. -/
def opRW (prim : FP → FP → FP) (r : FP) (a : Fast) : Fast := fa (prim r a.val)

/-- Operator shape `Fast<F> ⊕ Fast<F>` generated by `impl_op!`. -/
def opWW (prim : FP → FP → FP) (a b : Fast) : Fast := fa (prim a.val b.val)

/-- `Ord::cmp` on the wrapper (source lines 174-184): `Less` if `<`, else
`Equal` if `==`, else `Greater`, with `<` and `==` the derived
(IEEE partial) comparisons. -/
def Fast.cmp (a b : Fast) : Ordering :=
  if flt a.val b.val then .lt
  else if feq a.val b.val then .eq
  else .gt

/-- The derived `PartialOrd` on the wrapper (from `#[derive(PartialOrd)]`):
field-wise float partial comparison. -/
def Fast.pcmp (a b : Fast) : Option Ordering := pcmpFP a.val b.val

/-- `PartialOrd<F> for Fast<F>` (source lines 274-278): wrap the raw
operand and apply the total order, always returning `some`. -/
def Fast.pcmpRaw (a : Fast) (r : FP) : Option Ordering := some (a.cmp (fa r))

/-- `One::one` for the wrapper (source lines 147-150). -/
def Fast.one : Fast := fa (.fin 1)

/-- `Zero::zero` for the wrapper (source lines 152-155). -/
def Fast.zero : Fast := fa (.fin 0)

/-- Value of a decimal source literal: the nearest scalar of the format. -/
def litF (fmt : Fmt) (q : ℚ) : FP := fround fmt q

/-- `Sum<&F32> for F32` (source lines 256-260): left fold of wrapped
addition starting from `fa(0.0)`. -/
def sumF32 (l : List Fast) : Fast :=
  l.foldl (fun a b => opWW (fadd fmt32) a b) (fa (litF fmt32 0))

/-- `Sum<&F64> for F64` (source lines 262-266). -/
def sumF64 (l : List Fast) : Fast :=
  l.foldl (fun a b => opWW (fadd fmt64) a b) (fa (litF fmt64 0))

/-- Widening cast `f32 → f64` (`self.0 as f64`): exact, every binary32
value is a binary64 value. -/
def widen : FP → FP
  | .nan => .nan
  | .inf s => .inf s
  | .fin q => .fin q

/-- `F32::as_64` (source lines 201-204). -/
def Fast.as_64 (x : Fast) : Fast := fa (widen x.val)

/-- Narrowing cast `f64 → f32` (`self.0 as f32`): round to nearest
binary32, overflowing to infinity. -/
def narrow : FP → FP
  | .nan => .nan
  | .inf s => .inf s
  | .fin q => fround fmt32 q

/-- `F64::as_32` (source lines 234-238). -/
def Fast.as_32 (x : Fast) : Fast := fa (narrow x.val)

/-- `Fast::mul_add` (source line 193): delegated fused multiply-add,
rewrapped. -/
def mulAdd (fmt : Fmt) (a x y : Fast) : Fast := fa (ffma fmt a.val x.val y.val)

/-- `fastexp` (source lines 207-212 and 240-245; the two width impls are
textually identical): `y = 1.0 + self * 0.00390625`, then eight squarings
`y *= y`, all through the fast-math operator impls. -/
def fastexp (fmt : Fmt) (x : Fast) : Fast :=
  let y := opRW (fadd fmt) (litF fmt 1) (opWR (fmul fmt) x (litF fmt (390625 / 100000000)))
  let y := opWW (fmul fmt) y y
  let y := opWW (fmul fmt) y y
  let y := opWW (fmul fmt) y y
  let y := opWW (fmul fmt) y y
  let y := opWW (fmul fmt) y y
  let y := opWW (fmul fmt) y y
  let y := opWW (fmul fmt) y y
  let y := opWW (fmul fmt) y y
  y

/-- Unsigned 32-bit reduction of an integer. -/
def toU32 (z : ℤ) : ℕ := (z % 4294967296).toNat

/-- Two's-complement read of a bit pattern as an `i32` value. -/
def toI32 (u : ℕ) : ℤ :=
  if u % 4294967296 < 2147483648 then (u % 4294967296 : ℕ)
  else (u % 4294967296 : ℕ) - 4294967296

/-- Wrapping `i32` subtraction (release-build semantics of `-`). -/
def wrapSub32 (x y : ℤ) : ℤ := toI32 (toU32 (x - y))

/-- Bitwise AND of two `i32` values (two's complement). -/
def and32 (x y : ℤ) : ℤ := toI32 (toU32 x &&& toU32 y)

/-- Overflow-checked `i32` subtraction (debug-build semantics of `-`:
`none` models the overflow panic). -/
def checkedSub32 (x y : ℤ) : Option ℤ :=
  if -2147483648 ≤ x - y ∧ x - y < 2147483648 then some (x - y) else none

/-- Decode a binary32 bit pattern into its scalar value (IEEE fields:
sign, 8 exponent bits, 23 fraction bits). -/
def decode32 (u : ℕ) : FP :=
  let s := decide (2147483648 ≤ u)
  let eb := u / 8388608 % 256
  let fr := u % 8388608
  if eb = 255 then (if fr = 0 then .inf s else .nan)
  else if eb = 0 then .fin ((if s then -1 else 1) * fr * pow2 (-149))
  else .fin ((if s then -1 else 1) * ((8388608 + fr : ℕ) : ℚ) * pow2 ((eb : ℤ) - 150))

/-- Encode a scalar value as a binary32 bit pattern (inverse of
`decode32` on exact binary32 values; NaN maps to the canonical quiet NaN
pattern). -/
def encode32 : FP → ℕ
  | .nan => 0x7FC00000
  | .inf s => if s then 0xFF800000 else 0x7F800000
  | .fin q =>
    if q = 0 then 0
    else
      let sb : ℕ := if q < 0 then 2147483648 else 0
      let a := qabs q
      let e := findE a 24 254 (-149)
      let m := roundHalfEven (a / pow2 e)
      if m < 8388608 then sb + m
      else sb + ((e + 150).toNat % 256) * 8388608 + (m - 8388608) % 8388608

/-- Polynomial tail of `fastln` (source lines 220-226), shared by the
release and checked embeddings: `s = f*f`, the four coefficient fused
multiply-adds, and the final `i.mul_add(fa(0.693147182), r)`. -/
def lnPoly (i f : Fast) : Fast :=
  let s := opWW (fmul fmt32) f f
  let r := mulAdd fmt32 (fa (litF fmt32 (230836749 / 1000000000))) f
    (fa (litF fmt32 (-(279208571 / 1000000000))))
  let t := mulAdd fmt32 (fa (litF fmt32 (331826031 / 1000000000))) f
    (fa (litF fmt32 (-(498910338 / 1000000000))))
  let r := mulAdd fmt32 r s t
  let r := mulAdd fmt32 r s f
  mulAdd fmt32 i (fa (litF fmt32 (693147182 / 1000000000))) r

/-- `F32::fastln` (source lines 214-227) on the input's bit pattern,
with wrapping (release-build) `i32` subtraction:
`selfi = transmute(self)`, `e = (selfi - 0x3f2aaaab) & 0xff800000`,
`m = transmute(selfi - e)`, `i = fa(e as f32) * 1.19209290e-7`,
`f = m - 1.0`, then the polynomial tail. -/
def fastlnBits (b : ℕ) : Fast :=
  let selfi := toI32 b
  let e := and32 (wrapSub32 selfi 0x3f2aaaab) (toI32 0xff800000)
  let m := fa (decode32 (toU32 (wrapSub32 selfi e)))
  let i := opWR (fmul fmt32) (fa (fround fmt32 (e : ℚ)))
    (litF fmt32 (119209290 / 1000000000000000))
  let f := opWR (fsub fmt32) m (litF fmt32 1)
  lnPoly i f

/-- `F32::fastln` with overflow-checked (debug-build) `i32` subtraction:
`none` models the arithmetic-overflow panic. -/
def fastlnChecked (b : ℕ) : Option Fast :=
  let selfi := toI32 b
  match checkedSub32 selfi 0x3f2aaaab with
  | none => none
  | some w =>
    let e := and32 w (toI32 0xff800000)
    match checkedSub32 selfi e with
    | none => none
    | some mb =>
      let m := fa (decode32 (toU32 mb))
      let i := opWR (fmul fmt32) (fa (fround fmt32 (e : ℚ)))
        (litF fmt32 (119209290 / 1000000000000000))
      let f := opWR (fsub fmt32) m (litF fmt32 1)
      some (lnPoly i f)

/-- `F32::fastln` as a method on wrapped values. -/
def Fast.fastln32 (x : Fast) : Fast := fastlnBits (encode32 x.val)

/-- `F64::fastln` (source lines 247-249): narrow, 32-bit `fastln`,
widen. -/
def Fast.fastln64 (x : Fast) : Fast := x.as_32.fastln32.as_64

/-- The fast exponential as the specification states it: initialize
`y = 1 + x * (1/256)` (the literal `0.00390625` is exactly `1/256`), then
square `y` exactly eight times; nothing else — in particular no range
reduction step exists. -/
def fastexpSpec (fmt : Fmt) (x : Fast) : Fast :=
  let y := fa (fadd fmt (.fin 1) (fmul fmt x.val (.fin (1 / 256))))
  let y := fa (fmul fmt y.val y.val)
  let y := fa (fmul fmt y.val y.val)
  let y := fa (fmul fmt y.val y.val)
  let y := fa (fmul fmt y.val y.val)
  let y := fa (fmul fmt y.val y.val)
  let y := fa (fmul fmt y.val y.val)
  let y := fa (fmul fmt y.val y.val)
  let y := fa (fmul fmt y.val y.val)
  y

/-- The 32-bit fast natural log as the specification states it: plain
(non-wrapping) integer arithmetic on the reinterpreted bits,
`e = (bits - 0x3F2AAAAB) & 0xFF800000`, `m = bits - e` reinterpreted,
`i = e * 2 ^ (-23)` held exactly, `f = m - 1`, then the same
coefficient polynomial (the claim lists exactly the four source
coefficients and the final `ln 2` fused multiply-add). -/
def fastlnSpec (b : ℕ) : Fast :=
  let selfi := toI32 b
  let e := and32 (selfi - 0x3f2aaaab) (toI32 0xff800000)
  let m := fa (decode32 (toU32 (selfi - e)))
  let i := fa (.fin ((e : ℚ) * pow2 (-23)))
  let f := opWR (fsub fmt32) m (.fin 1)
  lnPoly i f

theorem pow2_eq (e : ℤ) : pow2 e = (2 : ℚ) ^ e := by
  unfold pow2
  rcases le_or_lt 0 e with h | h
  · rw [if_pos h]
    push_cast
    rw [← zpow_natCast (2 : ℚ) e.toNat, Int.toNat_of_nonneg h]
  · rw [if_neg (not_le.mpr h)]
    push_cast
    rw [← zpow_natCast (2 : ℚ) (-e).toNat, Int.toNat_of_nonneg (by omega),
      ← zpow_neg, neg_neg]

theorem pow2_pos (e : ℤ) : 0 < pow2 e := by
  rw [pow2_eq]
  positivity

theorem qabs_eq (q : ℚ) : qabs q = |q| := by
  unfold qabs
  split
  · exact (abs_of_neg (by assumption)).symm
  · exact (abs_of_nonneg (not_lt.mp (by assumption))).symm

theorem roundHalfEven_natCast (n : ℕ) : roundHalfEven (n : ℚ) = n := by
  unfold roundHalfEven
  simp [Rat.num_natCast, Rat.den_natCast, Nat.mod_one]

theorem findE_le (a : ℚ) (p : ℕ) (fuel : ℕ) :
    ∀ k e0 : ℤ, k ≤ e0 → a < pow2 (e0 + p) → (e0 - k).toNat < fuel →
      findE a p fuel k ≤ e0 := by
  induction fuel with
  | zero =>
    intro k e0 _ _ h
    omega
  | succ f ih =>
    intro k e0 hk ha hfuel
    unfold findE
    split
    · rename_i hle
      have hkne : k ≠ e0 := by
        rintro rfl
        exact absurd ha (not_lt.mpr hle)
      exact ih (k + 1) e0 (by omega) ha (by omega)
    · exact hk

theorem fround_eq_of_isRepr {fmt : Fmt} {q : ℚ} (h : isRepr fmt q) :
    fround fmt q = .fin q := by
  obtain ⟨m, e0, hm, he1, he2, rfl⟩ := h
  by_cases h0 : (m : ℚ) * pow2 e0 = 0
  · rw [h0]
    unfold fround
    rw [if_pos rfl]
  · have hm0 : m ≠ 0 := by
      rintro rfl
      exact h0 (by push_cast; ring)
    have habs : qabs ((m : ℚ) * pow2 e0) = ((m.natAbs : ℕ) : ℚ) * pow2 e0 := by
      rw [qabs_eq, abs_mul, abs_of_pos (pow2_pos e0)]
      congr 1
      rw [Int.cast_natAbs, Int.cast_abs]
    have hub : qabs ((m : ℚ) * pow2 e0) < pow2 (e0 + fmt.prec) := by
      rw [habs, pow2_eq, pow2_eq, zpow_add₀ (two_ne_zero) e0 (fmt.prec : ℤ)]
      have h1 : ((m.natAbs : ℕ) : ℚ) < ((2 ^ fmt.prec : ℕ) : ℚ) := by
        exact_mod_cast hm
      have h2 : ((2 ^ fmt.prec : ℕ) : ℚ) = (2 : ℚ) ^ (fmt.prec : ℤ) := by
        push_cast
        rw [← zpow_natCast]
      calc ((m.natAbs : ℕ) : ℚ) * (2 : ℚ) ^ e0
          < ((2 ^ fmt.prec : ℕ) : ℚ) * (2 : ℚ) ^ e0 := by
            exact mul_lt_mul_of_pos_right h1 (by positivity)
        _ = (2 : ℚ) ^ e0 * (2 : ℚ) ^ (fmt.prec : ℤ) := by rw [h2]; ring
    have hE : findE (qabs ((m : ℚ) * pow2 e0)) fmt.prec
        ((fmt.emax - fmt.emin).toNat + 1) fmt.emin ≤ e0 :=
      findE_le _ _ _ _ _ he1 hub (by omega)
    set e' := findE (qabs ((m : ℚ) * pow2 e0)) fmt.prec
        ((fmt.emax - fmt.emin).toNat + 1) fmt.emin with he'
    have hdiv : qabs ((m : ℚ) * pow2 e0) / pow2 e'
        = ((m.natAbs * 2 ^ (e0 - e').toNat : ℕ) : ℚ) := by
      rw [habs, pow2_eq, pow2_eq]
      push_cast
      rw [← zpow_natCast (2 : ℚ) (e0 - e').toNat, Int.toNat_of_nonneg (by omega),
        mul_div_assoc, ← zpow_sub₀ (two_ne_zero)]
    have hmul : ((m.natAbs * 2 ^ (e0 - e').toNat : ℕ) : ℚ) * pow2 e'
        = qabs ((m : ℚ) * pow2 e0) := by
      rw [← hdiv]
      exact div_mul_cancel₀ _ (pow2_pos e').ne'
    have hle : qabs ((m : ℚ) * pow2 e0) ≤ fmt.maxFin := by
      rw [habs]
      unfold Fmt.maxFin
      have h1 : ((m.natAbs : ℕ) : ℚ) ≤ ((2 ^ fmt.prec - 1 : ℕ) : ℚ) := by
        have : m.natAbs ≤ 2 ^ fmt.prec - 1 := by omega
        exact_mod_cast this
      have h2 : pow2 e0 ≤ pow2 fmt.emax := by
        rw [pow2_eq, pow2_eq]
        exact zpow_le_zpow_right₀ one_le_two he2
      exact mul_le_mul h1 h2 (le_of_lt (pow2_pos e0)) (by positivity)
    unfold fround
    rw [if_neg h0]
    simp only [← he']
    rw [hdiv, roundHalfEven_natCast, if_neg (not_lt.mpr (hmul.le.trans hle))]
    congr 1
    rw [mul_assoc, hmul, qabs_eq]
    split
    · rename_i hneg
      rw [abs_of_neg hneg]
      ring
    · rename_i hpos
      rw [abs_of_nonneg (not_lt.mp hpos)]
      ring

theorem land_mask_hi (u : ℕ) (hu : u < 4294967296) :
    u &&& 4286578688 = u / 8388608 * 8388608 := by
  have hM : (4286578688 : ℕ) = 2 ^ 23 * 511 := by norm_num
  have hp : (2 : ℕ) ^ 23 = 8388608 := by norm_num
  have hR : u / 8388608 * 8388608 = 2 ^ 23 * (u >>> 23) := by
    rw [Nat.shiftRight_eq_div_pow, hp]
    omega
  rw [hM, hR]
  apply Nat.eq_of_testBit_eq
  intro i
  rw [Nat.testBit_land, Nat.testBit_mul_pow_two, Nat.testBit_mul_pow_two]
  rcases lt_or_ge i 23 with hi | hi
  · have : ¬ (i ≥ 23) := by omega
    simp [this]
  · rcases lt_or_ge i 32 with hi2 | hi2
    · have h511 : Nat.testBit 511 (i - 23) = true := by
        have h9 : (511 : ℕ) = 2 ^ 9 - 1 := by norm_num
        rw [h9, Nat.testBit_two_pow_sub_one]
        simp
        omega
      rw [Nat.testBit_shiftRight]
      have h23 : 23 + (i - 23) = i := by omega
      rw [h23, h511]
      simp [hi]
    · have hu' : Nat.testBit u i = false := by
        apply Nat.testBit_lt_two_pow
        calc u < 4294967296 := hu
          _ = 2 ^ 32 := by norm_num
          _ ≤ 2 ^ i := Nat.pow_le_pow_right (by norm_num) hi2
      rw [Nat.testBit_shiftRight]
      have h23 : 23 + (i - 23) = i := by omega
      rw [h23, hu']
      simp

theorem toU32_lt (z : ℤ) : toU32 z < 4294967296 := by
  unfold toU32
  omega

theorem and32_mask (w : ℤ) (hw1 : -2147483648 ≤ w) (hw2 : w < 2147483648) :
    and32 w (toI32 4286578688) = w - w % 8388608 := by
  have hu : toU32 (toI32 4286578688) = 4286578688 := by decide
  unfold and32
  rw [hu, land_mask_hi (toU32 w) (toU32_lt w)]
  unfold toI32 toU32
  split <;> omega

theorem toU32_wrapSub32 (x y : ℤ) : toU32 (wrapSub32 x y) = toU32 (x - y) := by
  unfold wrapSub32 toI32 toU32
  split <;> omega

theorem wrapSub32_range (x y : ℤ) :
    -2147483648 ≤ wrapSub32 x y ∧ wrapSub32 x y < 2147483648 := by
  unfold wrapSub32 toI32 toU32
  split <;> omega

theorem wrapSub32_eq (x y : ℤ) (h1 : -2147483648 ≤ x - y)
    (h2 : x - y < 2147483648) : wrapSub32 x y = x - y := by
  unfold wrapSub32 toI32 toU32
  split <;> omega

theorem toI32_range (u : ℕ) :
    -2147483648 ≤ toI32 u ∧ toI32 u < 2147483648 := by
  unfold toI32
  split <;> omega

theorem pow2_z : pow2 0 = 1 := by norm_num [pow2]

theorem pow2_23 : pow2 23 = 8388608 := by
  norm_num [pow2, show Int.toNat 23 = 23 from rfl]

theorem pow2_neg23 : pow2 (-23) = 1 / 8388608 := by
  norm_num [pow2, show Int.toNat 23 = 23 from rfl]

theorem pow2_neg8 : pow2 (-8) = 1 / 256 := by
  norm_num [pow2, show Int.toNat 8 = 8 from rfl]

theorem litF_one32 : litF fmt32 1 = .fin 1 :=
  fround_eq_of_isRepr
    ⟨1, 0, by norm_num [fmt32], by norm_num [fmt32], by norm_num [fmt32],
      by simp [pow2_z]⟩

theorem litF_one64 : litF fmt64 1 = .fin 1 :=
  fround_eq_of_isRepr
    ⟨1, 0, by norm_num [fmt64], by norm_num [fmt64], by norm_num [fmt64],
      by simp [pow2_z]⟩

theorem litF_inv256_32 : litF fmt32 (390625 / 100000000) = .fin (1 / 256) := by
  have h : (390625 / 100000000 : ℚ) = 1 / 256 := by norm_num
  rw [litF, h]
  exact fround_eq_of_isRepr
    ⟨1, -8, by norm_num [fmt32], by norm_num [fmt32], by norm_num [fmt32],
      by simp [pow2_neg8]⟩

theorem litF_inv256_64 : litF fmt64 (390625 / 100000000) = .fin (1 / 256) := by
  have h : (390625 / 100000000 : ℚ) = 1 / 256 := by norm_num
  rw [litF, h]
  exact fround_eq_of_isRepr
    ⟨1, -8, by norm_num [fmt64], by norm_num [fmt64], by norm_num [fmt64],
      by simp [pow2_neg8]⟩

theorem litF_eps32 :
    litF fmt32 (119209290 / 1000000000000000) = .fin (1 / 8388608) := by
  decide!

theorem litF_zero32 : litF fmt32 0 = .fin 0 := by
  unfold litF fround
  rw [if_pos rfl]

theorem litF_zero64 : litF fmt64 0 = .fin 0 := by
  unfold litF fround
  rw [if_pos rfl]

theorem isNan_iff (x : FP) : x.isNan = true ↔ x = .nan := by
  cases x <;> simp [FP.isNan]

theorem flt_nan_right (x : FP) : flt x .nan = false := by
  cases x <;> rfl

theorem feq_nan_right (x : FP) : feq x .nan = false := by
  cases x <;> rfl

theorem flt_nan_left (y : FP) : flt .nan y = false := by
  cases y <;> rfl

theorem feq_nan_left (y : FP) : feq .nan y = false := by
  cases y <;> rfl

/-- C1: the total-order comparison follows exactly the rule Less if `<`,
else Equal if `==`, else Greater; consequently a NaN-valued wrapped scalar
compares strictly Greater than itself (the order is not reflexive on
NaN). -/
theorem C1_total_order_rule :
    (∀ a b : Fast, a.cmp b =
      if flt a.val b.val then Ordering.lt
      else if feq a.val b.val then Ordering.eq
      else Ordering.gt) ∧
    (∀ n : Fast, n.val.isNan = true → n.cmp n = Ordering.gt) := by
  constructor
  · intro a b
    rfl
  · intro n h
    rw [isNan_iff] at h
    unfold Fast.cmp
    rw [h]
    rfl

theorem C1_total_order_rule_witness :
    (fa FP.nan).val.isNan = true ∧
      (fa FP.nan).cmp (fa FP.nan) = Ordering.gt :=
  ⟨rfl, C1_total_order_rule.2 (fa FP.nan) rfl⟩

/-- C3: the fast exponential, at both widths, is exactly
`y = 1 + x * (1/256)` followed by eight squarings, with no range
reduction (the whole computation is this initialization and the eight
multiplications). -/
theorem C3_fastexp_squarings :
    (∀ x : Fast, fastexp fmt32 x = fastexpSpec fmt32 x) ∧
    (∀ x : Fast, fastexp fmt64 x = fastexpSpec fmt64 x) := by
  constructor
  · intro x
    simp only [fastexp, fastexpSpec, litF_one32, litF_inv256_32]
    rfl
  · intro x
    simp only [fastexp, fastexpSpec, litF_one64, litF_inv256_64]
    rfl

/-- C4: the 64-bit fast natural log is exactly the composition narrow to
32 bits, 32-bit fast natural log, widen back to 64 bits. -/
theorem C4_fastln64_composition :
    ∀ x : Fast, x.fastln64 = x.as_32.fastln32.as_64 :=
  fun _ => rfl

/-- C5: for each of the five binary operators, all three operand shapes
(`wrapped ⊕ raw`, `raw ⊕ wrapped`, `wrapped ⊕ wrapped`) route to the same
per-operator fast-math primitive and return `wrap (fastop x y)`. -/
theorem C5_operator_shapes :
    ∀ (fmt : Fmt) (x y : FP),
      (opWR (fadd fmt) (fa x) y = fa (fadd fmt x y) ∧
        opRW (fadd fmt) x (fa y) = fa (fadd fmt x y) ∧
        opWW (fadd fmt) (fa x) (fa y) = fa (fadd fmt x y)) ∧
      (opWR (fsub fmt) (fa x) y = fa (fsub fmt x y) ∧
        opRW (fsub fmt) x (fa y) = fa (fsub fmt x y) ∧
        opWW (fsub fmt) (fa x) (fa y) = fa (fsub fmt x y)) ∧
      (opWR (fmul fmt) (fa x) y = fa (fmul fmt x y) ∧
        opRW (fmul fmt) x (fa y) = fa (fmul fmt x y) ∧
        opWW (fmul fmt) (fa x) (fa y) = fa (fmul fmt x y)) ∧
      (opWR (fdiv fmt) (fa x) y = fa (fdiv fmt x y) ∧
        opRW (fdiv fmt) x (fa y) = fa (fdiv fmt x y) ∧
        opWW (fdiv fmt) (fa x) (fa y) = fa (fdiv fmt x y)) ∧
      (opWR frem (fa x) y = fa (frem x y) ∧
        opRW frem x (fa y) = fa (frem x y) ∧
        opWW frem (fa x) (fa y) = fa (frem x y)) :=
  fun _ _ _ =>
    ⟨⟨rfl, rfl, rfl⟩, ⟨rfl, rfl, rfl⟩, ⟨rfl, rfl, rfl⟩, ⟨rfl, rfl, rfl⟩,
      ⟨rfl, rfl, rfl⟩⟩

/-- C6: summation is a left fold starting at the wrapped zero using the
wrapped add operator; summing `[1.0, 2.0, 3.0]` yields `6.0` and the
empty sum yields `0.0`. -/
theorem C6_sum_fold :
    (∀ l : List Fast, sumF32 l = l.foldl (opWW (fadd fmt32)) Fast.zero) ∧
    (∀ l : List Fast, sumF64 l = l.foldl (opWW (fadd fmt64)) Fast.zero) ∧
    sumF32 [fa (.fin 1), fa (.fin 2), fa (.fin 3)] = fa (.fin 6) ∧
    sumF32 [] = fa (.fin 0) := by
  refine ⟨?_, ?_, ?_, ?_⟩
  · intro l
    simp only [sumF32, litF_zero32]
    rfl
  · intro l
    simp only [sumF64, litF_zero64]
    rfl
  · decide!
  · simp only [sumF32, litF_zero32, List.foldl_nil]

/-- C7: widening a 32-bit value to 64 bits and narrowing back returns the
original value, for every exactly representable 32-bit value. -/
theorem C7_width_roundtrip :
    ∀ q : ℚ, isRepr fmt32 q → (fa (.fin q)).as_64.as_32 = fa (.fin q) := by
  intro q h
  show fa (fround fmt32 q) = fa (.fin q)
  rw [fround_eq_of_isRepr h]

theorem C7_width_roundtrip_witness :
    (fa (FP.fin (3 / 2))).as_64.as_32 = fa (FP.fin (3 / 2)) :=
  C7_width_roundtrip (3 / 2)
    ⟨3, -1, by norm_num [fmt32], by norm_num [fmt32], by norm_num [fmt32],
      by norm_num [pow2]⟩

/-- C8: adding the wrapped zero and multiplying by the wrapped one leave
every representable wrapped value unchanged, at both widths. -/
theorem C8_identities :
    (∀ q : ℚ, isRepr fmt32 q →
      opWW (fadd fmt32) (fa (.fin q)) Fast.zero = fa (.fin q) ∧
      opWW (fmul fmt32) (fa (.fin q)) Fast.one = fa (.fin q)) ∧
    (∀ q : ℚ, isRepr fmt64 q →
      opWW (fadd fmt64) (fa (.fin q)) Fast.zero = fa (.fin q) ∧
      opWW (fmul fmt64) (fa (.fin q)) Fast.one = fa (.fin q)) := by
  constructor
  · intro q h
    constructor
    · show fa (fround fmt32 (q + 0)) = fa (.fin q)
      rw [add_zero, fround_eq_of_isRepr h]
    · show fa (fround fmt32 (q * 1)) = fa (.fin q)
      rw [mul_one, fround_eq_of_isRepr h]
  · intro q h
    constructor
    · show fa (fround fmt64 (q + 0)) = fa (.fin q)
      rw [add_zero, fround_eq_of_isRepr h]
    · show fa (fround fmt64 (q * 1)) = fa (.fin q)
      rw [mul_one, fround_eq_of_isRepr h]

theorem C8_identities_witness :
    opWW (fadd fmt32) (fa (.fin 3)) Fast.zero = fa (.fin 3) ∧
    opWW (fmul fmt64) (fa (.fin 3)) Fast.one = fa (.fin 3) := by
  have h32 : isRepr fmt32 3 :=
    ⟨3, 0, by norm_num [fmt32], by norm_num [fmt32], by norm_num [fmt32],
      by simp [pow2_z]⟩
  have h64 : isRepr fmt64 3 :=
    ⟨3, 0, by norm_num [fmt64], by norm_num [fmt64], by norm_num [fmt64],
      by simp [pow2_z]⟩
  exact ⟨(C8_identities.1 3 h32).1, (C8_identities.2 3 h64).2⟩

/-- C10: comparison of a wrapped value against a raw scalar is always a
definite `some` of the total-order comparison against the wrapped raw
operand — `some Greater` whenever NaN is involved — whereas the
wrapped-versus-wrapped partial comparison is `none` on NaN. -/
theorem C10_pcmp_raw_total :
    (∀ (v : Fast) (r : FP), v.pcmpRaw r = some (v.cmp (fa r))) ∧
    (∀ (v : Fast) (r : FP), v.val.isNan = true ∨ r.isNan = true →
      v.pcmpRaw r = some Ordering.gt) ∧
    (∀ a b : Fast, a.val.isNan = true ∨ b.val.isNan = true →
      a.pcmp b = none) := by
  refine ⟨fun v r => rfl, ?_, ?_⟩
  · intro v r h
    unfold Fast.pcmpRaw Fast.cmp
    rcases h with h | h
    · rw [isNan_iff] at h
      rw [h, flt_nan_left, feq_nan_left]
      rfl
    · rw [isNan_iff] at h
      rw [h]
      show some (if flt v.val FP.nan then Ordering.lt
        else if feq v.val FP.nan then Ordering.eq else Ordering.gt) = _
      rw [flt_nan_right, feq_nan_right]
      rfl
  · intro a b h
    unfold Fast.pcmp pcmpFP
    rcases h with h | h <;> rw [isNan_iff] at h <;> rw [h] <;>
      simp [FP.isNan]

theorem C10_pcmp_raw_total_witness :
    (fa FP.nan).pcmpRaw FP.nan = some Ordering.gt ∧
      (fa FP.nan).pcmp (fa FP.nan) = none :=
  ⟨C10_pcmp_raw_total.2.1 (fa FP.nan) FP.nan (Or.inl rfl),
    C10_pcmp_raw_total.2.2 (fa FP.nan) (fa FP.nan) (Or.inl rfl)⟩

theorem and32_wrapSub (x y z : ℤ) :
    and32 (wrapSub32 x y) z = and32 (x - y) z := by
  unfold and32
  rw [toU32_wrapSub32]

theorem and32_mask_bounds (W : ℤ) :
    and32 W (toI32 4286578688) % 8388608 = 0 ∧
    -2147483648 ≤ and32 W (toI32 4286578688) ∧
    and32 W (toI32 4286578688) < 2147483648 := by
  have hu := toU32_lt W
  unfold and32
  rw [show toU32 (toI32 4286578688) = 4286578688 from by decide,
    land_mask_hi (toU32 W) hu]
  unfold toI32
  split <;> refine ⟨?_, ?_, ?_⟩ <;> omega

/-- C2: for every input bit pattern, the 32-bit fast natural log computes
exactly the claimed algorithm: `e = (bits - 0x3F2AAAAB) & 0xFF800000`
over the reinterpreted signed 32-bit integer (the two's-complement
wrapping of the subtraction is invisible after the mask), the scalar
`m` is the reinterpretation of `bits - e`, `i` is exactly the rational
`e * 2 ^ (-23)` (the literal `1.19209290e-7` rounds to exactly `2 ^ (-23)`
and `e as f32` and the product are exact for every reachable `e`),
`f = m - 1`, and the result combines the coefficient polynomial
(`0.230836749`, `-0.279208571`, `0.331826031`, `-0.498910338`) and the
final `ln 2` (`0.693147182`) fused multiply-add with `f` added in the last
polynomial step. -/
theorem C2_fastln_algorithm : ∀ b : ℕ, fastlnBits b = fastlnSpec b := by
  intro b
  simp only [fastlnBits, fastlnSpec]
  rw [and32_wrapSub, toU32_wrapSub32, litF_one32, litF_eps32]
  set e := and32 (toI32 b - 1059760811) (toI32 4286578688) with hedef
  obtain ⟨hm0, hlo, hhi⟩ := and32_mask_bounds (toI32 b - 1059760811)
  rw [← hedef] at hm0 hlo hhi
  set k := e / 8388608 with hk
  have hek : e = k * 8388608 := by omega
  have hkb : -256 ≤ k ∧ k < 256 := by omega
  have hrepr1 : isRepr fmt32 ((e : ℚ)) := by
    refine ⟨k, 23, ?_, ?_, ?_, ?_⟩
    · show k.natAbs < 2 ^ fmt32.prec
      have hp : (2 : ℕ) ^ fmt32.prec = 16777216 := by norm_num [fmt32]
      omega
    · norm_num [fmt32]
    · norm_num [fmt32]
    · rw [pow2_23, hek]
      push_cast
      ring
  have hrepr2 : isRepr fmt32 ((k : ℚ)) := by
    refine ⟨k, 0, ?_, ?_, ?_, ?_⟩
    · show k.natAbs < 2 ^ fmt32.prec
      have hp : (2 : ℕ) ^ fmt32.prec = 16777216 := by norm_num [fmt32]
      omega
    · norm_num [fmt32]
    · norm_num [fmt32]
    · rw [pow2_z]
      ring
  have hq : ((e : ℚ)) * (1 / 8388608) = (k : ℚ) := by
    rw [hek]
    push_cast
    ring
  have hI : opWR (fmul fmt32) (fa (fround fmt32 ((e : ℚ)))) (FP.fin (1 / 8388608))
      = fa (FP.fin ((e : ℚ) * pow2 (-23))) := by
    rw [fround_eq_of_isRepr hrepr1]
    show fa (fround fmt32 ((e : ℚ) * (1 / 8388608))) = _
    rw [hq, fround_eq_of_isRepr hrepr2, pow2_neg23, hq]
  rw [hI]

/-- C9 counterexample: with overflow-checked (debug-build) `i32`
arithmetic, `fastln` on the bit pattern `0x80000000` (the scalar `-0.0`)
hits an overflow in `selfi - 0x3f2aaaab`, i.e. panics instead of
producing a result — the claim that no operation ever panics fails. -/
theorem C9_debug_overflow_counterexample :
    fastlnChecked 2147483648 = none := by
  decide!

/-- C9 amended: outside the overflow window (bit patterns `0x80000000`
through `0xBF2AAAAA`), the overflow-checked `fastln` always produces a
result, and it is the same result as the wrapping (release-build)
semantics; NaN and Infinity bit patterns all lie outside the window, so
exceptional operands never panic. -/
theorem C9_total_outside_overflow :
    ∀ b : ℕ, b < 4294967296 → (b < 2147483648 ∨ 3207244458 < b) →
      fastlnChecked b = some (fastlnBits b) := by
  intro b hb hr
  have hsr := toI32_range b
  have hs2 : -1087722837 ≤ toI32 b := by
    unfold toI32
    split <;> omega
  have h1 : checkedSub32 (toI32 b) 1059760811 = some (toI32 b - 1059760811) := by
    unfold checkedSub32
    rw [if_pos ⟨by omega, by omega⟩]
  have hw1 : wrapSub32 (toI32 b) 1059760811 = toI32 b - 1059760811 :=
    wrapSub32_eq _ _ (by omega) (by omega)
  obtain ⟨hm0, hlo, hhi⟩ := and32_mask_bounds (toI32 b - 1059760811)
  have hW := and32_mask (toI32 b - 1059760811) (by omega) (by omega)
  have h2 : checkedSub32 (toI32 b) (and32 (toI32 b - 1059760811) (toI32 4286578688))
      = some (toI32 b - and32 (toI32 b - 1059760811) (toI32 4286578688)) := by
    unfold checkedSub32
    rw [if_pos ⟨by omega, by omega⟩]
  have hw2 : wrapSub32 (toI32 b) (and32 (toI32 b - 1059760811) (toI32 4286578688))
      = toI32 b - and32 (toI32 b - 1059760811) (toI32 4286578688) :=
    wrapSub32_eq _ _ (by omega) (by omega)
  simp only [fastlnChecked, fastlnBits]
  rw [hw1, h1]
  dsimp only
  rw [h2]
  dsimp only
  rw [hw2]

theorem C9_total_outside_overflow_witness :
    (1065353216 : ℕ) < 4294967296 ∧
    ((1065353216 : ℕ) < 2147483648 ∨ (3207244458 : ℕ) < 1065353216) ∧
    fastlnChecked 1065353216 = some (fastlnBits 1065353216) :=
  ⟨by norm_num, Or.inl (by norm_num),
    C9_total_outside_overflow 1065353216 (by norm_num) (Or.inl (by norm_num))⟩

end FastFloat
